import Mathlib

/-!
Verification of the Telegram sentiment bot core against its specification.
Machine reals are modelled as rationals; the classifier, file system and
transport are modelled as explicit parameters or state.
-/

namespace SentimentBot

/-! ### Score normalizer (`RussianSentimentAnalyzer._convert_to_scale`) -/

/-- Clamp a score into the 1–10 band, as `max(1.0, min(10.0, x))`. -/
def clamp110 (x : ℚ) : ℚ := max 1 (min 10 x)

/-- Round-half-to-even to the nearest integer (Python `round` tie rule). -/
def rhalfEven (x : ℚ) : ℤ :=
  let f := ⌊x⌋
  let r := x - f
  if r < 1/2 then f
  else if 1/2 < r then f + 1
  else if f % 2 = 0 then f else f + 1

/-- Python `round(x, 1)`: round to one decimal place. -/
def round1 (x : ℚ) : ℚ := (rhalfEven (10 * x) : ℚ) / 10

/-- Python `round(x, 2)`: round to two decimal places. -/
def round2 (x : ℚ) : ℚ := (rhalfEven (100 * x) : ℚ) / 100

/-- The piecewise base score of `_convert_to_scale`, before clamping,
jitter and rounding (translated from `sentiment_analyzer.py` lines 76–104). -/
def baseScore (pn pz pp : ℚ) : ℚ :=
  let polarity := pp - pn
  let confidence := max pn (max pz pp)
  if polarity < -(1/10) then
    if 9/10 < confidence then 1 + (polarity + 1) * (3/2)
    else if 7/10 < confidence then 3/2 + (polarity + 1) * (3/2)
    else 5/2 + (polarity + 1) * 1
  else if 1/10 < polarity then
    if 9/10 < confidence then 17/2 + polarity * (3/2)
    else if 7/10 < confidence then 7 + polarity * (3/2)
    else 13/2 + polarity * (1/2)
  else
    let b := 5 + polarity * (8/10)
    if 8/10 < confidence then 5 else b + (1/2 - confidence) * (6/10)

/-- `_convert_to_scale` with the random jitter made an explicit argument:
clamp the base score, add the jitter, clamp again, round to one decimal. -/
def convertToScale (pn pz pp jitter : ℚ) : ℚ :=
  let s := clamp110 (baseScore pn pz pp)
  round1 (clamp110 (s + jitter))

/-- The base score as worded by the specification (§4.2 step 3):
polarity/confidence piecewise banding. -/
def specBaseScore (pn pz pp : ℚ) : ℚ :=
  let polarity := pp - pn
  let confidence := max pn (max pz pp)
  if polarity < -(1/10) then
    if 9/10 < confidence then 1 + (polarity + 1) * (3/2)
    else if 7/10 < confidence then 3/2 + (polarity + 1) * (3/2)
    else 5/2 + (polarity + 1) * 1
  else if 1/10 < polarity then
    if 9/10 < confidence then 17/2 + polarity * (3/2)
    else if 7/10 < confidence then 7 + polarity * (3/2)
    else 13/2 + polarity * (1/2)
  else
    let b := 5 + polarity * (8/10)
    if 8/10 < confidence then 5 else b + (1/2 - confidence) * (6/10)

/-- The normalizer as worded by the specification: piecewise base score,
clamp to [1,10], round to one decimal (jitter fixed to 0). -/
def specNormalize (pn pz pp : ℚ) : ℚ :=
  round1 (clamp110 (specBaseScore pn pz pp))

/-! ### Outlier detector (`RussianSentimentAnalyzer.is_outlier`) -/

/-- `is_outlier(score, low, high)`: `score <= low or score >= high`. -/
def isOutlier (score low high : ℚ) : Bool :=
  decide (score ≤ low) || decide (high ≤ score)

/-! ### Data model: message records and JSON values -/

/-- A `message_data` dict as built by `SentimentBot.handle_message`. -/
structure MessageRecord where
  message_id : Int
  chat_id : Int
  user_id : Option Int
  username : Option String
  text : String
  timestamp : String
  sentiment_score : ℚ
  sentiment_label : String
deriving DecidableEq

/-- JSON values, as produced by `json.dumps` / consumed by `json.load`. -/
inductive Json where
  | null
  | bool (b : Bool)
  | num (q : ℚ)
  | str (s : String)
  | arr (elems : List Json)
  | obj (fields : List (String × Json))

/-- Encode an optional value, `None` becoming JSON `null`. -/
def encOpt (f : α → Json) : Option α → Json
  | none => Json.null
  | some a => f a

/-- JSON serialization of one `MessageRecord` (the dict literal of
`handle_message`, lines 122–131). -/
def encodeRecord (r : MessageRecord) : Json :=
  .obj [("message_id", .num r.message_id),
        ("chat_id", .num r.chat_id),
        ("user_id", encOpt (fun n => Json.num n) r.user_id),
        ("username", encOpt Json.str r.username),
        ("text", .str r.text),
        ("timestamp", .str r.timestamp),
        ("sentiment_score", .num r.sentiment_score),
        ("sentiment_label", .str r.sentiment_label)]

/-- Read a JSON number back as a Python int (exact integer). -/
def asInt : Json → Option Int
  | .num q => if q.den = 1 then some q.num else none
  | _ => none

/-- Read a JSON string back. -/
def asStr : Json → Option String
  | .str s => some s
  | _ => none

/-- Read a JSON number back as a rational score. -/
def asRat : Json → Option ℚ
  | .num q => some q
  | _ => none

/-- Read back an optional int (`null` ↦ `None`). -/
def asOptInt : Json → Option (Option Int)
  | .null => some none
  | .num q => if q.den = 1 then some (some q.num) else none
  | _ => none

/-- Read back an optional string (`null` ↦ `None`). -/
def asOptStr : Json → Option (Option String)
  | .null => some none
  | .str s => some (some s)
  | _ => none

/-- Key lookup in a JSON object, first binding wins (Python dict access). -/
def jLookup (fields : List (String × Json)) (k : String) : Option Json :=
  match fields with
  | [] => none
  | (k', v) :: rest => if k' = k then some v else jLookup rest k

/-- Decode one `MessageRecord` from its JSON object. -/
def decodeRecord (j : Json) : Option MessageRecord :=
  match j with
  | .obj fields => do
      let mid ← jLookup fields "message_id" >>= asInt
      let cid ← jLookup fields "chat_id" >>= asInt
      let uid ← jLookup fields "user_id" >>= asOptInt
      let uname ← jLookup fields "username" >>= asOptStr
      let txt ← jLookup fields "text" >>= asStr
      let ts ← jLookup fields "timestamp" >>= asStr
      let score ← jLookup fields "sentiment_score" >>= asRat
      let label ← jLookup fields "sentiment_label" >>= asStr
      some ⟨mid, cid, uid, uname, txt, ts, score, label⟩
  | _ => none

/-- Decode a per-day store file (a JSON array of record objects). -/
def decodeRecords (j : Json) : Option (List MessageRecord) :=
  match j with
  | .arr l => l.mapM decodeRecord
  | _ => none

/-- The JSON array written by `save_current_data`: existing file entries
followed by the flushed session buffer (`all_data = existing_data +
self.session_messages`). -/
def saveCurrentDataJ (existing buffer : List MessageRecord) : Json :=
  .arr ((existing ++ buffer).map encodeRecord)

/-! ### Store files and corrupt-JSON handling -/

/-- A store file on disk: absent, unparseable, or a parsed JSON array. -/
inductive StoreFile where
  | missing
  | corrupt
  | valid (entries : List Json)

/-- `_save_to_json`'s read step: missing file or a `json.JSONDecodeError`
both yield an empty store. -/
def loadOrEmpty : StoreFile → List Json
  | .missing => []
  | .corrupt => []
  | .valid l => l

/-- `SentimentBot._save_to_json`: read (empty on missing/corrupt), append
the datum, write back. -/
def saveToJson (f : StoreFile) (d : Json) : StoreFile :=
  .valid (loadOrEmpty f ++ [d])

/-- `SentimentBot.save_current_data` at file level: empty buffer returns;
a corrupt file makes `json.loads` raise, the outer `except` swallows it,
so nothing is written and the buffer is not cleared; otherwise existing
entries plus the whole buffer are written and the buffer is cleared.
Returns (file after, buffer after). -/
def saveCurrentDataFile (f : StoreFile) (buffer : List Json) : StoreFile × List Json :=
  match buffer with
  | [] => (f, [])
  | b :: bs =>
    match f with
    | .corrupt => (.corrupt, b :: bs)
    | .missing => (.valid (b :: bs), [])
    | .valid l => (.valid (l ++ (b :: bs)), [])

/-! ### Session aggregator (`handle_message` + `save_current_data`) -/

/-- In-memory session state plus the two record stores. `writes` counts
completed `save_current_data` writes to the per-day store. -/
structure AggState where
  buffer : List MessageRecord
  store : List MessageRecord
  outlierStore : List MessageRecord
  outlierCount : ℕ
  writes : ℕ
deriving DecidableEq

/-- `save_current_data` on a valid per-day store: no-op on an empty
buffer, else append the whole buffer to the store and clear it. -/
def saveCurrentData (st : AggState) : AggState :=
  if st.buffer = [] then st
  else { st with buffer := [], store := st.store ++ st.buffer, writes := st.writes + 1 }

/-- `handle_message` after sentiment analysis: append the record to the
session buffer, write it to the outlier store when it trips the detector,
then flush when the buffer length is a multiple of 10. -/
def handleRecord (low high : ℚ) (st : AggState) (r : MessageRecord) : AggState :=
  let st1 := { st with buffer := st.buffer ++ [r] }
  let st2 :=
    if isOutlier r.sentiment_score low high then
      { st1 with outlierStore := st1.outlierStore ++ [r],
                 outlierCount := st1.outlierCount + 1 }
    else st1
  if st2.buffer.length % 10 = 0 then saveCurrentData st2 else st2

/-- Process a sequence of inbound records in order. -/
def handleAll (low high : ℚ) (st : AggState) (rs : List MessageRecord) : AggState :=
  rs.foldl (handleRecord low high) st

/-! ### Daily report generation (`generate_daily_report`) -/

/-- Python `str.startswith`, on the underlying character sequence. -/
def pyStartsWith (s pre : String) : Bool := List.isPrefixOf pre.data s.data

/-- Python dict access `msg[k]` on a `message_data` record: only the eight
keys written by `handle_message` exist; any other key is a `KeyError`
(modelled as `none`). -/
def recordGet (r : MessageRecord) (k : String) : Option Json :=
  if k = "message_id" then some (.num r.message_id)
  else if k = "chat_id" then some (.num r.chat_id)
  else if k = "user_id" then some (encOpt (fun n => Json.num n) r.user_id)
  else if k = "username" then some (encOpt Json.str r.username)
  else if k = "text" then some (.str r.text)
  else if k = "timestamp" then some (.str r.timestamp)
  else if k = "sentiment_score" then some (.num r.sentiment_score)
  else if k = "sentiment_label" then some (.str r.sentiment_label)
  else none

/-- Python truthiness of a JSON value. -/
def jsonTruthy : Json → Bool
  | .null => false
  | .bool b => b
  | .num q => decide (q ≠ 0)
  | .str s => decide (s ≠ "")
  | .arr l => !l.isEmpty
  | .obj l => !l.isEmpty

/-- Maximum of a score list, `0` when empty (`max(scores) if scores else 0`). -/
def listMax : List ℚ → ℚ
  | [] => 0
  | s :: rest => rest.foldl max s

/-- Minimum of a score list, `0` when empty. -/
def listMin : List ℚ → ℚ
  | [] => 0
  | s :: rest => rest.foldl min s

/-- `generate_daily_report`: filter the session buffer to today's records;
if none, return the store unchanged. Otherwise compute the statistics; the
outlier list comprehension accesses `msg["is_outlier"]`, a key the records
do not carry, so the access fails (KeyError), the surrounding `except`
swallows it and the report store is left unchanged. Only if every access
succeeded would the report object be appended. -/
def dailyReport (today now : String) (buffer : List MessageRecord)
    (reportStore : List Json) : List Json :=
  let todayMessages := buffer.filter (fun m => pyStartsWith m.timestamp today)
  if todayMessages.isEmpty then reportStore
  else
    let scores := todayMessages.map (fun m => m.sentiment_score)
    let avg := (scores.foldl (· + ·) 0) / (scores.length : ℚ)
    match todayMessages.mapM (fun m => recordGet m "is_outlier") with
    | none => reportStore
    | some flags =>
      let report : Json := .obj
        [("date", .str today),
         ("total_messages", .num (todayMessages.length : ℚ)),
         ("average_sentiment", .num (round2 avg)),
         ("outliers_count", .num ((flags.filter jsonTruthy).length : ℚ)),
         ("sentiment_distribution", .obj
           [("positive", .num ((scores.filter (fun s => decide (13/2 ≤ s))).length : ℚ)),
            ("neutral", .num ((scores.filter
              (fun s => decide (7/2 < s) && decide (s < 13/2))).length : ℚ)),
            ("negative", .num ((scores.filter (fun s => decide (s ≤ 7/2))).length : ℚ))]),
         ("top_positive", .num (listMax scores)),
         ("top_negative", .num (listMin scores)),
         ("generated_at", .str now)]
      reportStore ++ [report]

/-- A sample record with the given timestamp and score, as `handle_message`
would build it. -/
def mkRec (ts : String) (score : ℚ) : MessageRecord :=
  { message_id := 1, chat_id := 100, user_id := some 7, username := some "u",
    text := "msg", timestamp := ts, sentiment_score := score,
    sentiment_label := "NEUTRAL" }

/-! ### Text preprocessing (`preprocess_text`)

`re.sub` left-to-right single-pass substitution, specialised to the three
patterns of the source. The word-character predicate `w` (Python `\w`) and
whitespace predicate `ws` (Python `\s`) are parameters, so the theorems
cover the full Unicode classes. -/

/-- Is the head of the list a word character? -/
def headIsW (w : Char → Bool) : List Char → Bool
  | [] => false
  | c :: _ => w c

/-- The head of the list, if any, does not satisfy `p`. -/
def headOk (p : Char → Bool) : List Char → Bool
  | [] => true
  | c :: _ => !p c

/-- The last element of the list, if any, does not satisfy `p`. -/
def lastOk (p : Char → Bool) : List Char → Bool
  | [] => true
  | [c] => !p c
  | _ :: cs => lastOk p cs

/-- `re.sub(r'@\w+', '@user', ·)`: at each position, a mention match is an
`'@'` followed by at least one word character; the maximal run of word
characters is consumed and replaced by the placeholder `@user`; otherwise
the scanner advances one character. -/
def subMention (w : Char → Bool) : List Char → List Char
  | [] => []
  | c :: cs =>
    if decide (c = '@') && headIsW w cs then
      '@' :: 'u' :: 's' :: 'e' :: 'r' :: subMention w (cs.dropWhile w)
    else c :: subMention w cs
termination_by l => l.length
decreasing_by
  · refine lt_of_le_of_lt (List.Sublist.length_le (List.dropWhile_sublist _)) ?_
    simp only [List.length_cons]
    omega
  · simp only [List.length_cons]
    omega

/-- Does the URL pattern `http[s]?://\S+` match at the head of the list? -/
def urlHit (ws : Char → Bool) : List Char → Bool
  | 'h' :: 't' :: 't' :: 'p' :: 's' :: ':' :: '/' :: '/' :: c :: _ => !ws c
  | 'h' :: 't' :: 't' :: 'p' :: ':' :: '/' :: '/' :: c :: _ => !ws c
  | _ => false

/-- Does the list start with the five characters `https`? -/
def isHttps : List Char → Bool
  | 'h' :: 't' :: 't' :: 'p' :: 's' :: _ => true
  | _ => false

/-- The remainder after a URL match at the head: skip the scheme part and
the maximal non-whitespace run. -/
def urlRest (ws : Char → Bool) (l : List Char) : List Char :=
  (l.drop (if isHttps l then 8 else 7)).dropWhile (fun x => !ws x)

/-- `re.sub(r'http[s]?://\S+', 'http', ·)`: a URL match is `https://` or
`http://` followed by at least one non-whitespace character; the match is
consumed and replaced by the placeholder `http`; otherwise the scanner
advances one character. -/
def subUrl (ws : Char → Bool) : List Char → List Char
  | [] => []
  | c :: cs =>
    if urlHit ws (c :: cs) then
      'h' :: 't' :: 't' :: 'p' :: subUrl ws (urlRest ws (c :: cs))
    else c :: subUrl ws cs
termination_by l => l.length
decreasing_by
  · unfold urlRest
    refine lt_of_le_of_lt (List.Sublist.length_le (List.dropWhile_sublist _)) ?_
    rw [List.length_drop]
    split <;> (simp only [List.length_cons]; omega)
  · simp only [List.length_cons]
    omega

/-- `re.sub(r'\s+', ' ', ·)`: each maximal whitespace run becomes one
space. -/
def collapseWs (ws : Char → Bool) : List Char → List Char
  | [] => []
  | c :: cs =>
    if ws c then ' ' :: collapseWs ws (cs.dropWhile ws)
    else c :: collapseWs ws cs
termination_by l => l.length
decreasing_by
  · refine lt_of_le_of_lt (List.Sublist.length_le (List.dropWhile_sublist _)) ?_
    simp only [List.length_cons]
    omega
  · simp only [List.length_cons]
    omega

/-- Drop trailing whitespace characters. -/
def dropTrail (ws : Char → Bool) : List Char → List Char
  | [] => []
  | c :: cs =>
    match dropTrail ws cs with
    | [] => if ws c then [] else [c]
    | d :: ds => c :: d :: ds

/-- Python `str.strip()`: drop leading and trailing whitespace. -/
def pyStrip (ws : Char → Bool) (l : List Char) : List Char :=
  dropTrail ws (l.dropWhile ws)

/-- `preprocess_text` on character lists: mentions, then URLs, then
whitespace collapse, then trim. -/
def preprocessL (w ws : Char → Bool) (l : List Char) : List Char :=
  pyStrip ws (collapseWs ws (subUrl ws (subMention w l)))

/-- `preprocess_text` on strings. -/
def preprocessText (w ws : Char → Bool) (s : String) : String :=
  String.mk (preprocessL w ws s.data)

/-- Python `str.strip()` on strings. -/
def pyStripStr (ws : Char → Bool) (s : String) : String :=
  String.mk (pyStrip ws s.data)

/-- ASCII instantiation of Python `\w`. -/
def pyWordChar (c : Char) : Bool := c.isAlphanum || c = '_'

/-- ASCII instantiation of Python `\s`. -/
def pySpaceChar (c : Char) : Bool :=
  c = ' ' || c = '\t' || c = '\n' || c = '\r' || c = '\x0b' || c = '\x0c'

/-- Mention normal form: every `'@'` that is followed by a word character
begins a literal `@user` whose following character, if any, is not a word
character. -/
def atUserOk (w : Char → Bool) : List Char → Bool
  | [] => true
  | c :: cs =>
    if decide (c = '@') && headIsW w cs then
      decide (cs.take 4 = ['u', 's', 'e', 'r']) && headOk w (cs.drop 4) &&
        atUserOk w (cs.drop 4)
    else atUserOk w cs
termination_by l => l.length
decreasing_by
  · simp only [List.length_cons, List.length_drop]
    omega
  · simp only [List.length_cons]
    omega

/-- No position of the list matches the URL pattern. -/
def noUrl (ws : Char → Bool) : List Char → Bool
  | [] => true
  | c :: cs => !urlHit ws (c :: cs) && noUrl ws cs

/-- Whitespace normal form: every whitespace character is a single space
followed by a non-whitespace character (or the end). -/
def wsOk (ws : Char → Bool) : List Char → Bool
  | [] => true
  | c :: cs =>
    (if ws c then decide (c = ' ') && headOk ws cs else true) && wsOk ws cs

/-- The facts about the word-character and whitespace classes that the
idempotency argument uses. All hold for Python's Unicode `\w` and `\s`. -/
structure CharClasses (w ws : Char → Bool) : Prop where
  word_u : w 'u' = true
  word_s : w 's' = true
  word_e : w 'e' = true
  word_r : w 'r' = true
  word_h : w 'h' = true
  word_at : w '@' = false
  word_sp : w ' ' = false
  sp_sp : ws ' ' = true
  sp_h : ws 'h' = false
  sp_t : ws 't' = false
  sp_p : ws 'p' = false
  sp_s : ws 's' = false
  sp_colon : ws ':' = false
  sp_slash : ws '/' = false
  sp_at : ws '@' = false
  sp_u : ws 'u' = false
  sp_e : ws 'e' = false
  sp_r : ws 'r' = false

/-! ### Sentiment analysis entry point (`analyze_sentiment`) -/

/-- Sentiment labels. -/
inductive SentLabel where
  | NEGATIVE
  | NEUTRAL
  | POSITIVE
deriving DecidableEq

/-- `analyze_sentiment` with the classifier as an explicit oracle
(`none` models an exception anywhere inside the `try` block) and the
jitter explicit; also returns how many times the classifier was invoked.
Empty or whitespace-only text returns the fixed neutral result without
calling the classifier; a classifier failure yields the same neutral
fallback; otherwise the score is normalized and labelled by the fixed
cut points. -/
def analyzeSentimentCore (w ws : Char → Bool)
    (classify : String → Option (ℚ × ℚ × ℚ)) (jitter : ℚ) (text : String) :
    (ℚ × SentLabel) × ℕ :=
  if text = "" ∨ pyStripStr ws text = "" then ((5, .NEUTRAL), 0)
  else
    match classify (preprocessText w ws text) with
    | none => ((5, .NEUTRAL), 1)
    | some (pn, pz, pp) =>
      let score := convertToScale pn pz pp jitter
      ((score,
        if score ≤ 7/2 then .NEGATIVE
        else if 13/2 ≤ score then .POSITIVE
        else .NEUTRAL), 1)

/-- `analyze_sentiment`'s return value `(score, label)`. -/
def analyzeSentiment (w ws : Char → Bool)
    (classify : String → Option (ℚ × ℚ × ℚ)) (jitter : ℚ) (text : String) :
    ℚ × SentLabel :=
  (analyzeSentimentCore w ws classify jitter text).1

/-! ### Helper lemmas about clamping and rounding -/

theorem one_le_clamp110 (x : ℚ) : 1 ≤ clamp110 x := le_max_left _ _

theorem clamp110_le_ten (x : ℚ) : clamp110 x ≤ 10 :=
  max_le (by norm_num) (min_le_left _ _)

theorem clamp110_idem (x : ℚ) : clamp110 (clamp110 x) = clamp110 x := by
  show max 1 (min 10 (clamp110 x)) = clamp110 x
  rw [min_eq_right (clamp110_le_ten x), max_eq_right (one_le_clamp110 x)]

theorem le_rhalfEven {a : ℤ} {x : ℚ} (h : (a : ℚ) ≤ x) : a ≤ rhalfEven x := by
  have hf : a ≤ ⌊x⌋ := Int.le_floor.mpr h
  unfold rhalfEven
  dsimp only
  split
  · exact hf
  · split
    · omega
    · split
      · exact hf
      · omega

theorem rhalfEven_le {b : ℤ} {x : ℚ} (h : x ≤ (b : ℚ)) : rhalfEven x ≤ b := by
  have hfb : ⌊x⌋ ≤ b := by
    have := Int.floor_le_floor h
    simpa using this
  have hlt : (1:ℚ)/2 ≤ x - ⌊x⌋ → ⌊x⌋ < b := by
    intro hr
    have h1 : (⌊x⌋ : ℚ) < x := by
      have : (0:ℚ) < x - ⌊x⌋ := lt_of_lt_of_le (by norm_num) hr
      linarith
    have : (⌊x⌋ : ℚ) < (b : ℚ) := lt_of_lt_of_le h1 h
    exact_mod_cast this
  unfold rhalfEven
  dsimp only
  split
  · exact hfb
  · rename_i h1
    push_neg at h1
    split
    · rename_i h2
      have := hlt (le_of_lt h2)
      omega
    · split
      · exact hfb
      · have := hlt h1
        omega

theorem round1_mem_Icc {x : ℚ} (h1 : 1 ≤ x) (h10 : x ≤ 10) :
    1 ≤ round1 x ∧ round1 x ≤ 10 := by
  have hl : (10 : ℤ) ≤ rhalfEven (10 * x) := by
    apply le_rhalfEven
    push_cast
    linarith
  have hr : rhalfEven (10 * x) ≤ (100 : ℤ) := by
    apply rhalfEven_le
    push_cast
    linarith
  constructor
  · show (1:ℚ) ≤ (rhalfEven (10 * x) : ℚ) / 10
    rw [le_div_iff₀ (by norm_num)]
    exact_mod_cast by exact_mod_cast hl
  · show (rhalfEven (10 * x) : ℚ) / 10 ≤ 10
    rw [div_le_iff₀ (by norm_num)]
    exact_mod_cast by exact_mod_cast hr

/-! ### Claim theorems for the normalizer and outlier detector -/

/-- C1: with the jitter fixed to 0, `_convert_to_scale` computes exactly the
piecewise base score of the spec (polarity = p_p - p_n, confidence =
max of the three probabilities, confidence-banded piecewise formula),
clamped to [1,10] and rounded to one decimal place. -/
theorem convertToScale_eq_specNormalize (pn pz pp : ℚ) :
    convertToScale pn pz pp 0 = specNormalize pn pz pp := by
  show round1 (clamp110 (clamp110 (baseScore pn pz pp) + 0)) =
    round1 (clamp110 (specBaseScore pn pz pp))
  rw [add_zero, clamp110_idem]
  rfl

/-- C3: for every input probability vector, including ones that do not sum
to 1, and every jitter value in [-0.05, 0.05], the normalized score lies
in [1.0, 10.0]. -/
theorem convertToScale_mem_Icc (pn pz pp j : ℚ)
    (hj1 : -(1/20) ≤ j) (hj2 : j ≤ 1/20) :
    1 ≤ convertToScale pn pz pp j ∧ convertToScale pn pz pp j ≤ 10 := by
  unfold convertToScale
  exact round1_mem_Icc (one_le_clamp110 _) (clamp110_le_ten _)

/-- Witness for C3 at a concrete input: probabilities (1,0,0), jitter 1/20. -/
theorem convertToScale_mem_Icc_witness :
    1 ≤ convertToScale 1 0 0 (1/20) ∧ convertToScale 1 0 0 (1/20) ≤ 10 :=
  convertToScale_mem_Icc 1 0 0 (1/20) (by norm_num) (by norm_num)

/-- C5: `is_outlier(score, low, high)` returns true iff `score ≤ low` or
`score ≥ high`, for every threshold pair (including `low ≥ high`); and the
three concrete examples from the spec hold. -/
theorem isOutlier_iff :
    (∀ s low high : ℚ, isOutlier s low high = true ↔ (s ≤ low ∨ high ≤ s)) ∧
    isOutlier 3 3 (15/2) = true ∧
    isOutlier (31/10) 3 (15/2) = false ∧
    isOutlier (15/2) 3 (15/2) = true := by
  refine ⟨fun s low high => ?_, by norm_num [isOutlier], by norm_num [isOutlier],
    by norm_num [isOutlier]⟩
  simp [isOutlier]

/-! ### Aggregator lemmas and claim theorems -/

theorem handleRecord_no_flush (low high : ℚ) (b s o : List MessageRecord)
    (c w : ℕ) (r : MessageRecord) (h : (b ++ [r]).length % 10 ≠ 0) :
    handleRecord low high ⟨b, s, o, c, w⟩ r =
      if isOutlier r.sentiment_score low high then
        ⟨b ++ [r], s, o ++ [r], c + 1, w⟩
      else ⟨b ++ [r], s, o, c, w⟩ := by
  have h' : ¬(b.length + 1) % 10 = 0 := by simpa using h
  unfold handleRecord
  cases hout : isOutlier r.sentiment_score low high <;>
    simp [hout, saveCurrentData, h']

theorem handleAll_small (low high : ℚ) (rs : List MessageRecord) :
    ∀ (b s o : List MessageRecord) (c w : ℕ), b.length + rs.length ≤ 9 →
    handleAll low high ⟨b, s, o, c, w⟩ rs =
      ⟨b ++ rs, s, o ++ rs.filter (fun x => isOutlier x.sentiment_score low high),
       c + (rs.filter (fun x => isOutlier x.sentiment_score low high)).length, w⟩ := by
  induction rs with
  | nil => intro b s o c w _; simp [handleAll]
  | cons r rs ih =>
    intro b s o c w h
    have hlen : (b ++ [r]).length % 10 ≠ 0 := by
      simp only [List.length_append, List.length_cons, List.length_nil] at h ⊢
      omega
    show handleAll low high (handleRecord low high ⟨b, s, o, c, w⟩ r) rs = _
    rw [handleRecord_no_flush low high b s o c w r hlen]
    cases hout : isOutlier r.sentiment_score low high
    · rw [if_neg (by simp [hout])]
      rw [ih (b ++ [r]) s o c w (by simp at h ⊢; omega)]
      simp [List.filter_cons, hout]
    · rw [if_pos (by simp [hout])]
      rw [ih (b ++ [r]) s (o ++ [r]) (c + 1) w (by simp at h ⊢; omega)]
      simp [List.filter_cons, hout]
      omega

/-- C7: from an empty session buffer, 9 appended records cause zero
per-day-store writes and stay buffered; a 10th append causes exactly one
write of all 10 buffered records and clears the buffer. -/
theorem aggregator_flush_at_ten (low high : ℚ) (s₀ o₀ : List MessageRecord)
    (c₀ : ℕ) (rs : List MessageRecord) (r : MessageRecord) (h : rs.length = 9) :
    (handleAll low high ⟨[], s₀, o₀, c₀, 0⟩ rs).writes = 0 ∧
    (handleAll low high ⟨[], s₀, o₀, c₀, 0⟩ rs).buffer = rs ∧
    (handleAll low high ⟨[], s₀, o₀, c₀, 0⟩ rs).store = s₀ ∧
    (handleAll low high ⟨[], s₀, o₀, c₀, 0⟩ (rs ++ [r])).writes = 1 ∧
    (handleAll low high ⟨[], s₀, o₀, c₀, 0⟩ (rs ++ [r])).buffer = [] ∧
    (handleAll low high ⟨[], s₀, o₀, c₀, 0⟩ (rs ++ [r])).store = s₀ ++ (rs ++ [r]) := by
  have h9 : ([] : List MessageRecord).length + rs.length ≤ 9 := by simp [h]
  have hsmall := handleAll_small low high rs [] s₀ o₀ c₀ 0 h9
  have hten : handleAll low high ⟨[], s₀, o₀, c₀, 0⟩ (rs ++ [r]) =
      handleRecord low high (handleAll low high ⟨[], s₀, o₀, c₀, 0⟩ rs) r := by
    unfold handleAll
    rw [List.foldl_append]
    rfl
  rw [hsmall] at hten ⊢
  have hmod : ((rs : List MessageRecord) ++ [r]).length % 10 = 0 := by
    simp [h]
  refine ⟨rfl, rfl, rfl, ?_, ?_, ?_⟩ <;>
  · rw [hten]
    unfold handleRecord
    cases hout : isOutlier r.sentiment_score low high <;>
      simp [hout, hmod, saveCurrentData, h, List.append_assoc]

/-- Witness for C7: ten identical neutral-score records with the default
thresholds. -/
theorem aggregator_flush_at_ten_witness :
    (handleAll 3 (15/2) ⟨[], [], [], 0, 0⟩
        (List.replicate 9 (mkRec "2024-01-15T10:00:00" 5))).writes = 0 ∧
    (handleAll 3 (15/2) ⟨[], [], [], 0, 0⟩
        (List.replicate 9 (mkRec "2024-01-15T10:00:00" 5))).buffer =
      List.replicate 9 (mkRec "2024-01-15T10:00:00" 5) ∧
    (handleAll 3 (15/2) ⟨[], [], [], 0, 0⟩
        (List.replicate 9 (mkRec "2024-01-15T10:00:00" 5))).store = [] ∧
    (handleAll 3 (15/2) ⟨[], [], [], 0, 0⟩
        (List.replicate 9 (mkRec "2024-01-15T10:00:00" 5) ++
          [mkRec "2024-01-15T10:00:00" 5])).writes = 1 ∧
    (handleAll 3 (15/2) ⟨[], [], [], 0, 0⟩
        (List.replicate 9 (mkRec "2024-01-15T10:00:00" 5) ++
          [mkRec "2024-01-15T10:00:00" 5])).buffer = [] ∧
    (handleAll 3 (15/2) ⟨[], [], [], 0, 0⟩
        (List.replicate 9 (mkRec "2024-01-15T10:00:00" 5) ++
          [mkRec "2024-01-15T10:00:00" 5])).store =
      [] ++ (List.replicate 9 (mkRec "2024-01-15T10:00:00" 5) ++
        [mkRec "2024-01-15T10:00:00" 5]) := by
  exact aggregator_flush_at_ten 3 (15/2) [] [] 0
    (List.replicate 9 (mkRec "2024-01-15T10:00:00" 5))
    (mkRec "2024-01-15T10:00:00" 5) (by simp)

/-! ### Store corruption claim theorems -/

/-- C8 counterexample: for the per-day sentiment store, a corrupt existing
file is NOT treated as an empty store and overwritten — `save_current_data`
aborts the flush, the file stays corrupt and the buffer is kept. -/
theorem perDayStore_corrupt_not_overwritten :
    (saveCurrentDataFile .corrupt [Json.null]).1 ≠ StoreFile.valid [Json.null] ∧
    saveCurrentDataFile .corrupt [Json.null] = (.corrupt, [Json.null]) := by
  constructor
  · intro hcontra
    have h2 : StoreFile.corrupt = StoreFile.valid [Json.null] := hcontra
    exact StoreFile.noConfusion h2
  · rfl

/-- C8 amended: the outlier and daily-report stores (written through
`_save_to_json`) treat a corrupt file as an empty store and overwrite it
with the appended datum; the per-day sentiment store instead skips the
flush entirely on a corrupt file, leaving file and buffer unchanged. -/
theorem store_corrupt_behavior (d : Json) (l buf : List Json) (hbuf : buf ≠ []) :
    saveToJson .corrupt d = .valid [d] ∧
    saveToJson .missing d = .valid [d] ∧
    saveToJson (.valid l) d = .valid (l ++ [d]) ∧
    saveCurrentDataFile .corrupt buf = (.corrupt, buf) := by
  refine ⟨rfl, rfl, rfl, ?_⟩
  cases buf with
  | nil => exact absurd rfl hbuf
  | cons b bs => rfl

/-- Witness for C8 amended, at a one-element buffer and datum `null`. -/
theorem store_corrupt_behavior_witness :
    saveToJson .corrupt Json.null = .valid [Json.null] ∧
    saveToJson .missing Json.null = .valid [Json.null] ∧
    saveToJson (.valid []) Json.null = .valid ([] ++ [Json.null]) ∧
    saveCurrentDataFile .corrupt [Json.null] = (.corrupt, [Json.null]) :=
  store_corrupt_behavior Json.null [] [Json.null] (List.cons_ne_nil _ _)

/-! ### Per-day store round-trip (C9) -/

theorem decodeRecord_encodeRecord (r : MessageRecord) :
    decodeRecord (encodeRecord r) = some r := by
  cases r with
  | mk mid cid uid uname txt ts score label =>
    cases uid <;> cases uname <;>
      simp [encodeRecord, decodeRecord, jLookup, asInt, asStr, asRat,
        asOptInt, asOptStr, encOpt]

theorem mapM_decode_encode (l : List MessageRecord) :
    (l.map encodeRecord).mapM decodeRecord = some l := by
  induction l with
  | nil => rfl
  | cons r rest ih =>
    rw [List.map_cons, List.mapM_cons, decodeRecord_encodeRecord, ih]
    rfl

/-- C9: flushing a record sequence to the per-day store and reading the
file back yields exactly the written sequence — order-preserving,
field-exact, with pre-existing file entries before the new ones. -/
theorem perDayStore_roundTrip (existing buffer : List MessageRecord) :
    decodeRecords (saveCurrentDataJ existing buffer) = some (existing ++ buffer) := by
  unfold decodeRecords saveCurrentDataJ
  exact mapM_decode_encode (existing ++ buffer)

/-! ### Daily report claim theorem (C2) -/

/-- C2 (code bug): on a buffer of three current-day records with scores
2.0, 5.0, 9.0, `generate_daily_report` appends nothing to the report
store: the outlier filter reads `msg["is_outlier"]`, a key that
`handle_message` never writes, so a `KeyError` is raised and swallowed
and no `DailyReport` is produced. -/
theorem dailyReport_keyError_no_report (reportStore : List Json) :
    dailyReport "2024-01-15" "2024-01-15T23:59:00"
      [mkRec "2024-01-15T10:00:00" 2, mkRec "2024-01-15T11:00:00" 5,
       mkRec "2024-01-15T12:00:00" 9] reportStore = reportStore := by
  rfl

/-! ### Label cut points and neutral fallback (C4, C6) -/

/-- C4: for every result `(score, label)` of `analyze_sentiment` — the
neutral fallback paths included — the label is determined solely by the
final score through the fixed cut points: NEGATIVE iff score ≤ 3.5,
POSITIVE iff score ≥ 6.5, NEUTRAL otherwise. The configurable outlier
thresholds do not occur in the computation at all. -/
theorem analyzeSentiment_label_cut_points (w ws : Char → Bool)
    (classify : String → Option (ℚ × ℚ × ℚ)) (jitter : ℚ) (text : String) :
    ((analyzeSentiment w ws classify jitter text).2 = SentLabel.NEGATIVE ↔
      (analyzeSentiment w ws classify jitter text).1 ≤ 7/2) ∧
    ((analyzeSentiment w ws classify jitter text).2 = SentLabel.POSITIVE ↔
      13/2 ≤ (analyzeSentiment w ws classify jitter text).1) ∧
    ((analyzeSentiment w ws classify jitter text).2 = SentLabel.NEUTRAL ↔
      (7/2 < (analyzeSentiment w ws classify jitter text).1 ∧
       (analyzeSentiment w ws classify jitter text).1 < 13/2)) := by
  unfold analyzeSentiment analyzeSentimentCore
  split
  · norm_num
    exact ⟨by decide, by decide⟩
  · rename_i hne
    rcases hcl : classify (preprocessText w ws text) with _ | ⟨pn, pz, pp⟩
    · norm_num
      exact ⟨by decide, by decide⟩
    · dsimp only
      rcases le_or_lt (convertToScale pn pz pp jitter) (7/2) with h1 | h1
      · rw [if_pos h1]
        refine ⟨by simp [h1], ?_, ?_⟩
        · constructor
          · intro hcontra
            exact absurd hcontra (by simp)
          · intro hcontra
            linarith
        · constructor
          · intro hcontra
            exact absurd hcontra (by simp)
          · intro hcontra
            linarith [hcontra.1]
      · rw [if_neg (not_le.mpr h1)]
        rcases le_or_lt (13/2) (convertToScale pn pz pp jitter) with h2 | h2
        · rw [if_pos h2]
          refine ⟨?_, by simp [h2], ?_⟩
          · constructor
            · intro hcontra
              exact absurd hcontra (by simp)
            · intro hcontra
              linarith
          · constructor
            · intro hcontra
              exact absurd hcontra (by simp)
            · intro hcontra
              linarith [hcontra.2]
        · rw [if_neg (not_le.mpr h2)]
          refine ⟨?_, ?_, by simp [h1, h2]⟩
          · constructor
            · intro hcontra
              exact absurd hcontra (by simp)
            · intro hcontra
              linarith
          · constructor
            · intro hcontra
              exact absurd hcontra (by simp)
            · intro hcontra
              linarith

/-- C6: empty or whitespace-only text yields exactly (5.0, NEUTRAL) with
zero classifier invocations; and whenever the classifier raises, the same
(5.0, NEUTRAL) is returned instead of propagating the error. -/
theorem analyzeSentiment_neutral_fallback (w ws : Char → Bool)
    (classify : String → Option (ℚ × ℚ × ℚ)) (jitter : ℚ) (text : String) :
    (pyStripStr ws text = "" →
      analyzeSentimentCore w ws classify jitter text = ((5, .NEUTRAL), 0)) ∧
    (classify (preprocessText w ws text) = none →
      (analyzeSentimentCore w ws classify jitter text).1 = (5, .NEUTRAL)) := by
  constructor
  · intro hstrip
    unfold analyzeSentimentCore
    rw [if_pos (Or.inr hstrip)]
  · intro hcl
    unfold analyzeSentimentCore
    split
    · rfl
    · rw [hcl]

/-- Witness for C6: the two-space string bypasses the classifier and a
failing classifier on nonempty text still yields the neutral result. -/
theorem analyzeSentiment_neutral_fallback_witness :
    analyzeSentimentCore pyWordChar pySpaceChar (fun _ => some (1, 0, 0)) 0 "  " =
      ((5, .NEUTRAL), 0) ∧
    (analyzeSentimentCore pyWordChar pySpaceChar (fun _ => none) 0 "hello").1 =
      (5, .NEUTRAL) :=
  ⟨(analyzeSentiment_neutral_fallback pyWordChar pySpaceChar
      (fun _ => some (1, 0, 0)) 0 "  ").1 (by rfl),
   (analyzeSentiment_neutral_fallback pyWordChar pySpaceChar
      (fun _ => none) 0 "hello").2 (by rfl)⟩

/-! ### Idempotency of `preprocess_text` (C10): basic lemmas -/

theorem headOk_dropWhile (p : Char → Bool) (l : List Char) :
    headOk p (l.dropWhile p) = true := by
  induction l with
  | nil => rfl
  | cons c cs ih =>
    rw [List.dropWhile_cons]
    split
    · exact ih
    · rename_i h
      simp [headOk, h]

theorem dropWhile_of_headOk (p : Char → Bool) (l : List Char)
    (h : headOk p l = true) : l.dropWhile p = l := by
  cases l with
  | nil => rfl
  | cons c cs =>
    simp only [headOk, Bool.not_eq_true'] at h
    rw [List.dropWhile_cons, if_neg (by simp [h])]

theorem atUserOk_cons (w : Char → Bool) (c : Char) (cs : List Char) :
    atUserOk w (c :: cs) =
      if decide (c = '@') && headIsW w cs then
        decide (cs.take 4 = ['u', 's', 'e', 'r']) && headOk w (cs.drop 4) &&
          atUserOk w (cs.drop 4)
      else atUserOk w cs := by
  rw [atUserOk]

theorem atUserOk_cons_false {w : Char → Bool} {c : Char} {cs : List Char}
    (hc : (decide (c = '@') && headIsW w cs) = false) :
    atUserOk w (c :: cs) = atUserOk w cs := by
  rw [atUserOk_cons, hc]
  exact if_neg (by simp)

theorem atUserOk_cons_true {w : Char → Bool} {c : Char} {cs : List Char}
    (hc : (decide (c = '@') && headIsW w cs) = true) :
    atUserOk w (c :: cs) =
      (decide (cs.take 4 = ['u', 's', 'e', 'r']) && headOk w (cs.drop 4) &&
        atUserOk w (cs.drop 4)) := by
  rw [atUserOk_cons, hc]
  exact if_pos rfl

/-- Unpack a true mention-normal check at a matching `'@'`: the tail
starts with the literal `user` and the remainder is word-free at its head
and itself normal. -/
theorem atUserOk_user_shape {w : Char → Bool} {c : Char} {cs : List Char}
    (hc : (decide (c = '@') && headIsW w cs) = true)
    (h : atUserOk w (c :: cs) = true) :
    c = '@' ∧ ∃ rest, cs = 'u' :: 's' :: 'e' :: 'r' :: rest ∧
      headOk w rest = true ∧ atUserOk w rest = true := by
  rw [atUserOk_cons_true hc] at h
  rw [Bool.and_eq_true, Bool.and_eq_true, decide_eq_true_eq] at h
  obtain ⟨⟨htake, hhead⟩, hrec⟩ := h
  rw [Bool.and_eq_true, decide_eq_true_eq] at hc
  have hsplit := (List.take_append_drop 4 cs).symm
  rw [htake] at hsplit
  exact ⟨hc.1, cs.drop 4, by simpa using hsplit, hhead, hrec⟩

theorem atUserOk_tail {w : Char → Bool} {c : Char} {cs : List Char}
    (h : atUserOk w (c :: cs) = true) : atUserOk w cs = true := by
  cases hc : (decide (c = '@') && headIsW w cs) with
  | false => rwa [atUserOk_cons_false hc] at h
  | true =>
    obtain ⟨-, rest, rfl, -, hrec⟩ := atUserOk_user_shape hc h
    rw [atUserOk_cons_false (by rfl), atUserOk_cons_false (by rfl),
      atUserOk_cons_false (by rfl), atUserOk_cons_false (by rfl)]
    exact hrec

theorem atUserOk_suffix {w : Char → Bool} {l₂ l₁ : List Char}
    (hs : l₂ <:+ l₁) (h : atUserOk w l₁ = true) : atUserOk w l₂ = true := by
  obtain ⟨p, rfl⟩ := hs
  induction p with
  | nil => exact h
  | cons a p ih => exact ih (atUserOk_tail h)

theorem noUrl_tail {ws : Char → Bool} {c : Char} {cs : List Char}
    (h : noUrl ws (c :: cs) = true) : noUrl ws cs = true := by
  simp only [noUrl, Bool.and_eq_true] at h
  exact h.2

theorem noUrl_head {ws : Char → Bool} {c : Char} {cs : List Char}
    (h : noUrl ws (c :: cs) = true) : urlHit ws (c :: cs) = false := by
  simp only [noUrl, Bool.and_eq_true, Bool.not_eq_true'] at h
  exact h.1

theorem noUrl_suffix {ws : Char → Bool} {l₂ l₁ : List Char}
    (hs : l₂ <:+ l₁) (h : noUrl ws l₁ = true) : noUrl ws l₂ = true := by
  obtain ⟨p, rfl⟩ := hs
  induction p with
  | nil => exact h
  | cons a p ih => exact ih (noUrl_tail h)

theorem urlHit_shape {ws : Char → Bool} {l : List Char}
    (h : urlHit ws l = true) :
    (∃ c X, l = 'h' :: 't' :: 't' :: 'p' :: 's' :: ':' :: '/' :: '/' :: c :: X ∧
      ws c = false) ∨
    (∃ c X, l = 'h' :: 't' :: 't' :: 'p' :: ':' :: '/' :: '/' :: c :: X ∧
      ws c = false) := by
  unfold urlHit at h
  split at h
  · rename_i c X
    rw [Bool.not_eq_true'] at h
    exact Or.inl ⟨c, X, rfl, h⟩
  · rename_i c X
    rw [Bool.not_eq_true'] at h
    exact Or.inr ⟨c, X, rfl, h⟩
  · simp at h

theorem urlHit_cons_ne {ws : Char → Bool} {c : Char} {cs : List Char}
    (hc : c ≠ 'h') : urlHit ws (c :: cs) = false := by
  cases hu : urlHit ws (c :: cs) with
  | false => rfl
  | true =>
    rcases urlHit_shape hu with ⟨d, X, heq, _⟩ | ⟨d, X, heq, _⟩ <;>
      (injection heq with h1 _; exact absurd h1 hc)

theorem urlHit_append {ws : Char → Bool} {l q : List Char}
    (h : urlHit ws l = true) : urlHit ws (l ++ q) = true := by
  rcases urlHit_shape h with ⟨c, X, rfl, hws⟩ | ⟨c, X, rfl, hws⟩ <;>
    simp [urlHit, hws]

theorem noUrl_prefix {ws : Char → Bool} {m q : List Char}
    (h : noUrl ws (m ++ q) = true) : noUrl ws m = true := by
  induction m with
  | nil => rfl
  | cons c m' ih =>
    rw [List.cons_append] at h
    have h2 := noUrl_tail h
    have h1 := noUrl_head h
    simp only [noUrl, Bool.and_eq_true, Bool.not_eq_true']
    refine ⟨?_, ih h2⟩
    cases hu : urlHit ws (c :: m') with
    | false => rfl
    | true =>
      have := urlHit_append (q := q) hu
      rw [List.cons_append] at this
      rw [this] at h1
      exact h1

theorem wsOk_tail {ws : Char → Bool} {c : Char} {cs : List Char}
    (h : wsOk ws (c :: cs) = true) : wsOk ws cs = true := by
  simp only [wsOk, Bool.and_eq_true] at h
  exact h.2

theorem wsOk_suffix {ws : Char → Bool} {l₂ l₁ : List Char}
    (hs : l₂ <:+ l₁) (h : wsOk ws l₁ = true) : wsOk ws l₂ = true := by
  obtain ⟨p, rfl⟩ := hs
  induction p with
  | nil => exact h
  | cons a p ih => exact ih (wsOk_tail h)

theorem wsOk_prefix {ws : Char → Bool} {m q : List Char}
    (h : wsOk ws (m ++ q) = true) : wsOk ws m = true := by
  induction m with
  | nil => rfl
  | cons c m' ih =>
    rw [List.cons_append] at h
    have h2 := wsOk_tail h
    have h1 : (if ws c then decide (c = ' ') && headOk ws (m' ++ q) else true)
        = true := by
      simp only [wsOk, Bool.and_eq_true] at h
      exact h.1
    simp only [wsOk, Bool.and_eq_true]
    refine ⟨?_, ih h2⟩
    cases hws : ws c with
    | false => simp
    | true =>
      rw [if_pos rfl]
      rw [hws, if_pos rfl, Bool.and_eq_true] at h1
      rw [Bool.and_eq_true]
      refine ⟨h1.1, ?_⟩
      cases m' with
      | nil => rfl
      | cons d m'' =>
        rw [List.cons_append] at h1
        exact h1.2

theorem subMention_nil (w : Char → Bool) : subMention w [] = [] := by
  rw [subMention]

theorem subUrl_nil (ws : Char → Bool) : subUrl ws [] = [] := by
  rw [subUrl]

theorem collapseWs_nil (ws : Char → Bool) : collapseWs ws [] = [] := by
  rw [collapseWs]

theorem subMention_cons (w : Char → Bool) (c : Char) (cs : List Char) :
    subMention w (c :: cs) =
      if decide (c = '@') && headIsW w cs then
        '@' :: 'u' :: 's' :: 'e' :: 'r' :: subMention w (cs.dropWhile w)
      else c :: subMention w cs := by
  rw [subMention]

theorem subUrl_cons (ws : Char → Bool) (c : Char) (cs : List Char) :
    subUrl ws (c :: cs) =
      if urlHit ws (c :: cs) then
        'h' :: 't' :: 't' :: 'p' :: subUrl ws (urlRest ws (c :: cs))
      else c :: subUrl ws cs := by
  rw [subUrl]

theorem collapseWs_cons (ws : Char → Bool) (c : Char) (cs : List Char) :
    collapseWs ws (c :: cs) =
      if ws c then ' ' :: collapseWs ws (cs.dropWhile ws)
      else c :: collapseWs ws cs := by
  rw [collapseWs]

theorem mention_fixed {w ws : Char → Bool} (hcc : CharClasses w ws) :
    ∀ l, atUserOk w l = true → subMention w l = l := by
  have main : ∀ n (l : List Char), l.length ≤ n → atUserOk w l = true →
      subMention w l = l := by
    intro n
    induction n with
    | zero =>
      intro l hl _
      have : l = [] := List.eq_nil_of_length_eq_zero (Nat.le_zero.mp hl)
      subst this
      exact subMention_nil w
    | succ n ih =>
      intro l hl h
      cases l with
      | nil => exact subMention_nil w
      | cons c cs =>
        rw [subMention_cons]
        cases hc : (decide (c = '@') && headIsW w cs) with
        | false =>
          rw [if_neg (by simp [hc])]
          rw [atUserOk_cons_false hc] at h
          rw [ih cs (by simp only [List.length_cons] at hl; omega) h]
        | true =>
          rw [if_pos rfl]
          obtain ⟨rfl, rest, rfl, hhead, hrec⟩ := atUserOk_user_shape hc h
          have hdw : ('u' :: 's' :: 'e' :: 'r' :: rest).dropWhile w = rest := by
            simp [List.dropWhile_cons, hcc.word_u, hcc.word_s, hcc.word_e,
              hcc.word_r, dropWhile_of_headOk w rest hhead]
          rw [hdw, ih rest (by simp only [List.length_cons] at hl; omega) hrec]
  exact fun l => main l.length l le_rfl

theorem url_fixed {ws : Char → Bool} :
    ∀ l, noUrl ws l = true → subUrl ws l = l := by
  have main : ∀ n (l : List Char), l.length ≤ n → noUrl ws l = true →
      subUrl ws l = l := by
    intro n
    induction n with
    | zero =>
      intro l hl _
      have : l = [] := List.eq_nil_of_length_eq_zero (Nat.le_zero.mp hl)
      subst this
      exact subUrl_nil ws
    | succ n ih =>
      intro l hl h
      cases l with
      | nil => exact subUrl_nil ws
      | cons c cs =>
        rw [subUrl_cons, if_neg (by simp [noUrl_head h])]
        rw [ih cs (by simp only [List.length_cons] at hl; omega) (noUrl_tail h)]
  exact fun l => main l.length l le_rfl

theorem collapse_fixed {ws : Char → Bool} :
    ∀ l, wsOk ws l = true → collapseWs ws l = l := by
  have main : ∀ n (l : List Char), l.length ≤ n → wsOk ws l = true →
      collapseWs ws l = l := by
    intro n
    induction n with
    | zero =>
      intro l hl _
      have : l = [] := List.eq_nil_of_length_eq_zero (Nat.le_zero.mp hl)
      subst this
      exact collapseWs_nil ws
    | succ n ih =>
      intro l hl h
      cases l with
      | nil => exact collapseWs_nil ws
      | cons c cs =>
        cases hws : ws c with
        | false =>
          simp only [wsOk, Bool.and_eq_true] at h
          rw [collapseWs_cons, if_neg (by simp [hws])]
          rw [ih cs (by simp only [List.length_cons] at hl; omega) h.2]
        | true =>
          simp only [wsOk, Bool.and_eq_true] at h
          obtain ⟨h1, h2⟩ := h
          rw [hws, if_pos rfl, Bool.and_eq_true, decide_eq_true_eq] at h1
          obtain ⟨rfl, hhead⟩ := h1
          rw [collapseWs_cons, if_pos hws, dropWhile_of_headOk ws cs hhead]
          rw [ih cs (by simp only [List.length_cons] at hl; omega) h2]
  exact fun l => main l.length l le_rfl

theorem dropTrail_cons (ws : Char → Bool) (c : Char) (cs : List Char) :
    dropTrail ws (c :: cs) =
      match dropTrail ws cs with
      | [] => if ws c then [] else [c]
      | d :: ds => c :: d :: ds := by
  rw [dropTrail]

theorem dropTrail_spec (ws : Char → Bool) (l : List Char) :
    ∃ q, l = dropTrail ws l ++ q ∧ ∀ x ∈ q, ws x = true := by
  induction l with
  | nil => exact ⟨[], rfl, by simp⟩
  | cons c cs ih =>
    obtain ⟨q, hq, hqws⟩ := ih
    rw [dropTrail_cons]
    cases hd : dropTrail ws cs with
    | nil =>
      rw [hd] at hq
      simp only [List.nil_append] at hq
      cases hws : ws c with
      | true =>
        refine ⟨c :: cs, by simp, ?_⟩
        intro x hx
        rcases List.mem_cons.mp hx with rfl | hx
        · exact hws
        · exact hqws x (hq ▸ hx)
      | false => exact ⟨cs, by simp, fun x hx => hqws x (hq ▸ hx)⟩
    | cons d ds =>
      rw [hd] at hq
      exact ⟨q, by simpa using hq, hqws⟩

theorem dropTrail_lastOk (ws : Char → Bool) (l : List Char) :
    lastOk ws (dropTrail ws l) = true := by
  induction l with
  | nil => rfl
  | cons c cs ih =>
    rw [dropTrail_cons]
    cases hd : dropTrail ws cs with
    | nil =>
      cases hws : ws c with
      | true => rfl
      | false => simp [lastOk, hws]
    | cons d ds =>
      rw [hd] at ih
      simpa [lastOk] using ih

theorem dropTrail_fixed (ws : Char → Bool) :
    ∀ l, lastOk ws l = true → dropTrail ws l = l := by
  intro l
  induction l with
  | nil => intro _; rfl
  | cons c cs ih =>
    intro h
    rw [dropTrail_cons]
    cases cs with
    | nil =>
      simp only [lastOk, Bool.not_eq_true'] at h
      simp [dropTrail, h]
    | cons d ds =>
      have hcs : lastOk ws (d :: ds) = true := by
        simpa [lastOk] using h
      rw [ih hcs]

theorem dropTrail_head (ws : Char → Bool) (c : Char) (cs : List Char) :
    dropTrail ws (c :: cs) = [] ∨ ∃ X, dropTrail ws (c :: cs) = c :: X := by
  rw [dropTrail_cons]
  cases dropTrail ws cs with
  | nil =>
    cases hws : ws c with
    | true => exact Or.inl (by simp)
    | false => exact Or.inr ⟨[], by simp⟩
  | cons d ds => exact Or.inr ⟨d :: ds, rfl⟩

theorem atUserOk_nil (w : Char → Bool) : atUserOk w [] = true := by
  rw [atUserOk]

theorem urlRest_length_lt (ws : Char → Bool) (c : Char) (cs : List Char) :
    (urlRest ws (c :: cs)).length < (c :: cs).length := by
  unfold urlRest
  refine lt_of_le_of_lt (List.Sublist.length_le (List.dropWhile_sublist _)) ?_
  rw [List.length_drop]
  split <;> (simp only [List.length_cons]; omega)

theorem urlRest_suffix (ws : Char → Bool) (l : List Char) :
    urlRest ws l <:+ l := by
  unfold urlRest
  exact (List.dropWhile_suffix _).trans (List.drop_suffix _ _)

theorem urlRest_headWs (ws : Char → Bool) (l : List Char) :
    headOk (fun x => !ws x) (urlRest ws l) = true := by
  unfold urlRest
  exact headOk_dropWhile _ _

/-- `subUrl` preserves a non-word head (word chars include `h`, so a
non-word head can never start a URL match). -/
theorem headOkW_subUrl {w ws : Char → Bool} (hcc : CharClasses w ws)
    {x : List Char} (h : headOk w x = true) :
    headOk w (subUrl ws x) = true := by
  cases x with
  | nil => rw [subUrl_nil]; rfl
  | cons c cs =>
    simp only [headOk, Bool.not_eq_true'] at h
    have hch : c ≠ 'h' := by
      intro he
      rw [he, hcc.word_h] at h
      exact Bool.noConfusion h
    rw [subUrl_cons, if_neg (by simp [urlHit_cons_ne hch])]
    simp [headOk, h]

/-- `subUrl` preserves a whitespace head (`h` is not whitespace, so a
whitespace head can never start a URL match). -/
theorem headWs_subUrl {w ws : Char → Bool} (hcc : CharClasses w ws)
    {x : List Char} (h : headOk (fun c => !ws c) x = true) :
    headOk (fun c => !ws c) (subUrl ws x) = true := by
  cases x with
  | nil => rw [subUrl_nil]; rfl
  | cons c cs =>
    simp only [headOk, Bool.not_not] at h
    have hch : c ≠ 'h' := by
      intro he
      rw [he, hcc.sp_h] at h
      exact Bool.noConfusion h
    rw [subUrl_cons, if_neg (by simp [urlHit_cons_ne hch])]
    simp only [headOk, Bool.not_not]
    exact h

/-- `subMention` preserves a non-word head (any replacement starts with
`'@'`, which is not a word character). -/
theorem headOkW_subMention {w ws : Char → Bool} (hcc : CharClasses w ws)
    {x : List Char} (h : headOk w x = true) :
    headOk w (subMention w x) = true := by
  cases x with
  | nil => rw [subMention_nil]; rfl
  | cons c cs =>
    rw [subMention_cons]
    cases hcond : (decide (c = '@') && headIsW w cs) with
    | true =>
      rw [if_pos rfl]
      simp [headOk, hcc.word_at]
    | false =>
      rw [if_neg (by simp)]
      simpa [headOk] using h

/-- `collapseWs` preserves a non-word head (the replacement `' '` is not a
word character). -/
theorem headOkW_collapse {w ws : Char → Bool} (hcc : CharClasses w ws)
    {x : List Char} (h : headOk w x = true) :
    headOk w (collapseWs ws x) = true := by
  cases x with
  | nil => rw [collapseWs_nil]; rfl
  | cons c cs =>
    rw [collapseWs_cons]
    cases hws : ws c with
    | true =>
      rw [if_pos rfl]
      simp [headOk, hcc.word_sp]
    | false =>
      rw [if_neg (by simp)]
      simpa [headOk] using h

/-- `collapseWs` preserves a non-whitespace head. -/
theorem headOkWs_collapse {ws : Char → Bool}
    {x : List Char} (h : headOk ws x = true) :
    headOk ws (collapseWs ws x) = true := by
  cases x with
  | nil => rw [collapseWs_nil]; rfl
  | cons c cs =>
    simp only [headOk, Bool.not_eq_true'] at h
    rw [collapseWs_cons, if_neg (by simp [h])]
    simp [headOk, h]

theorem headOk_dropTrail (ws : Char → Bool) {p : Char → Bool}
    {x : List Char} (h : headOk p x = true) :
    headOk p (dropTrail ws x) = true := by
  cases x with
  | nil => rfl
  | cons c cs =>
    rcases dropTrail_head ws c cs with hnil | ⟨X, hX⟩
    · rw [hnil]; rfl
    · rw [hX]
      simpa [headOk] using h

theorem subUrl_peel_ne_h {ws : Char → Bool} {cs : List Char} {x : Char}
    {X : List Char} (hx : x ≠ 'h') (h : subUrl ws cs = x :: X) :
    ∃ cs', cs = x :: cs' ∧ subUrl ws cs' = X := by
  cases cs with
  | nil => rw [subUrl_nil] at h; exact absurd h (by simp)
  | cons d ds =>
    cases hu : urlHit ws (d :: ds) with
    | true =>
      rw [subUrl_cons, if_pos hu] at h
      injection h with h1 _
      exact absurd h1.symm hx
    | false =>
      rw [subUrl_cons, if_neg (by simp [hu])] at h
      injection h with h1 h2
      exact ⟨ds, by rw [h1], h2⟩

theorem subUrl_peelList {ws : Char → Bool} (pat : List Char)
    (hpat : ∀ x ∈ pat, x ≠ 'h') :
    ∀ cs X, subUrl ws cs = pat ++ X → ∃ cs', cs = pat ++ cs' ∧ subUrl ws cs' = X := by
  induction pat with
  | nil => intro cs X h; exact ⟨cs, rfl, by simpa using h⟩
  | cons a pat ih =>
    intro cs X h
    rw [List.cons_append] at h
    obtain ⟨cs', rfl, h2⟩ := subUrl_peel_ne_h (hpat a (by simp)) h
    obtain ⟨cs'', rfl, h3⟩ := ih (fun x hx => hpat x (by simp [hx])) cs' X h2
    exact ⟨cs'', by simp, h3⟩

theorem collapse_peel_nonws {w ws : Char → Bool} (hcc : CharClasses w ws)
    {cs : List Char} {x : Char} {X : List Char}
    (hx : ws x = false) (h : collapseWs ws cs = x :: X) :
    ∃ cs', cs = x :: cs' ∧ collapseWs ws cs' = X := by
  cases cs with
  | nil => rw [collapseWs_nil] at h; exact absurd h (by simp)
  | cons d ds =>
    cases hd : ws d with
    | true =>
      rw [collapseWs_cons, if_pos hd] at h
      injection h with h1 _
      rw [← h1, hcc.sp_sp] at hx
      exact Bool.noConfusion hx
    | false =>
      rw [collapseWs_cons, if_neg (by simp [hd])] at h
      injection h with h1 h2
      exact ⟨ds, by rw [h1], h2⟩

theorem collapse_peelList {w ws : Char → Bool} (hcc : CharClasses w ws)
    (pat : List Char) (hpat : ∀ x ∈ pat, ws x = false) :
    ∀ cs X, collapseWs ws cs = pat ++ X →
      ∃ cs', cs = pat ++ cs' ∧ collapseWs ws cs' = X := by
  induction pat with
  | nil => intro cs X h; exact ⟨cs, rfl, by simpa using h⟩
  | cons a pat ih =>
    intro cs X h
    rw [List.cons_append] at h
    obtain ⟨cs', rfl, h2⟩ := collapse_peel_nonws hcc (hpat a (by simp)) h
    obtain ⟨cs'', rfl, h3⟩ := ih (fun x hx => hpat x (by simp [hx])) cs' X h2
    exact ⟨cs'', by simp, h3⟩

/-- A URL match on `c :: subUrl ws cs` forces one on `c :: cs`: `subUrl`
copies characters verbatim until a match, every replacement starts with
`http` followed by whitespace, and the pattern tail contains no `h`. -/
theorem urlHit_cons_subUrl {w ws : Char → Bool} (hcc : CharClasses w ws)
    {c : Char} {cs : List Char}
    (h : urlHit ws (c :: subUrl ws cs) = true) :
    urlHit ws (c :: cs) = true := by
  rcases urlHit_shape h with ⟨e, X, heq, hwse⟩ | ⟨e, X, heq, hwse⟩
  · injection heq with hc heq
    subst hc
    have hpat : ∀ x ∈ (['t', 't', 'p', 's', ':', '/', '/'] : List Char),
        x ≠ 'h' := by decide
    obtain ⟨cs', rfl, h2⟩ := subUrl_peelList _ hpat cs (e :: X) (by simpa using heq)
    cases cs' with
    | nil => rw [subUrl_nil] at h2; exact absurd h2 (by simp)
    | cons f fs =>
      cases hu : urlHit ws (f :: fs) with
      | true =>
        rcases urlHit_shape hu with ⟨g, Y, heq2, _⟩ | ⟨g, Y, heq2, _⟩ <;>
        · injection heq2 with hf _
          subst hf
          simp [urlHit, List.cons_append, hcc.sp_h]
      | false =>
        rw [subUrl_cons, if_neg (by simp [hu])] at h2
        injection h2 with h3 _
        subst h3
        simp [urlHit, List.cons_append, hwse]
  · injection heq with hc heq
    subst hc
    have hpat : ∀ x ∈ (['t', 't', 'p', ':', '/', '/'] : List Char),
        x ≠ 'h' := by decide
    obtain ⟨cs', rfl, h2⟩ := subUrl_peelList _ hpat cs (e :: X) (by simpa using heq)
    cases cs' with
    | nil => rw [subUrl_nil] at h2; exact absurd h2 (by simp)
    | cons f fs =>
      cases hu : urlHit ws (f :: fs) with
      | true =>
        rcases urlHit_shape hu with ⟨g, Y, heq2, _⟩ | ⟨g, Y, heq2, _⟩ <;>
        · injection heq2 with hf _
          subst hf
          simp [urlHit, List.cons_append, hcc.sp_h]
      | false =>
        rw [subUrl_cons, if_neg (by simp [hu])] at h2
        injection h2 with h3 _
        subst h3
        simp [urlHit, List.cons_append, hwse]

/-- A URL match on `c :: collapseWs ws cs` forces one on `c :: cs`:
`collapseWs` copies non-whitespace characters verbatim, its replacement is
a whitespace character, and every character of the URL pattern is
non-whitespace. -/
theorem urlHit_cons_collapse {w ws : Char → Bool} (hcc : CharClasses w ws)
    {c : Char} {cs : List Char}
    (h : urlHit ws (c :: collapseWs ws cs) = true) :
    urlHit ws (c :: cs) = true := by
  rcases urlHit_shape h with ⟨e, X, heq, hwse⟩ | ⟨e, X, heq, hwse⟩
  · injection heq with hc heq
    subst hc
    have hpat : ∀ x ∈ (['t', 't', 'p', 's', ':', '/', '/'] : List Char),
        ws x = false := by
      intro x hx
      simp only [List.mem_cons, List.not_mem_nil, or_false] at hx
      rcases hx with rfl | rfl | rfl | rfl | rfl | rfl | rfl
      · exact hcc.sp_t
      · exact hcc.sp_t
      · exact hcc.sp_p
      · exact hcc.sp_s
      · exact hcc.sp_colon
      · exact hcc.sp_slash
      · exact hcc.sp_slash
    obtain ⟨cs', rfl, h2⟩ :=
      collapse_peelList hcc _ hpat cs (e :: X) (by simpa using heq)
    cases cs' with
    | nil => rw [collapseWs_nil] at h2; exact absurd h2 (by simp)
    | cons f fs =>
      cases hf : ws f with
      | true =>
        rw [collapseWs_cons, if_pos hf] at h2
        injection h2 with h3 _
        rw [← h3, hcc.sp_sp] at hwse
        exact Bool.noConfusion hwse
      | false =>
        rw [collapseWs_cons, if_neg (by simp [hf])] at h2
        injection h2 with h3 _
        subst h3
        simp [urlHit, List.cons_append, hwse]
  · injection heq with hc heq
    subst hc
    have hpat : ∀ x ∈ (['t', 't', 'p', ':', '/', '/'] : List Char),
        ws x = false := by
      intro x hx
      simp only [List.mem_cons, List.not_mem_nil, or_false] at hx
      rcases hx with rfl | rfl | rfl | rfl | rfl | rfl
      · exact hcc.sp_t
      · exact hcc.sp_t
      · exact hcc.sp_p
      · exact hcc.sp_colon
      · exact hcc.sp_slash
      · exact hcc.sp_slash
    obtain ⟨cs', rfl, h2⟩ :=
      collapse_peelList hcc _ hpat cs (e :: X) (by simpa using heq)
    cases cs' with
    | nil => rw [collapseWs_nil] at h2; exact absurd h2 (by simp)
    | cons f fs =>
      cases hf : ws f with
      | true =>
        rw [collapseWs_cons, if_pos hf] at h2
        injection h2 with h3 _
        rw [← h3, hcc.sp_sp] at hwse
        exact Bool.noConfusion hwse
      | false =>
        rw [collapseWs_cons, if_neg (by simp [hf])] at h2
        injection h2 with h3 _
        subst h3
        simp [urlHit, List.cons_append, hwse]

/-- The output of `subUrl` contains no URL match at any position. -/
theorem noUrl_subUrl {w ws : Char → Bool} (hcc : CharClasses w ws) :
    ∀ l, noUrl ws (subUrl ws l) = true := by
  have main : ∀ n (l : List Char), l.length ≤ n → noUrl ws (subUrl ws l) = true := by
    intro n
    induction n with
    | zero =>
      intro l hl
      have : l = [] := List.eq_nil_of_length_eq_zero (Nat.le_zero.mp hl)
      subst this
      rw [subUrl_nil]
      rfl
    | succ n ih =>
      intro l hl
      cases l with
      | nil => rw [subUrl_nil]; rfl
      | cons c cs =>
        cases hu : urlHit ws (c :: cs) with
        | false =>
          rw [subUrl_cons, if_neg (by simp [hu])]
          simp only [noUrl, Bool.and_eq_true, Bool.not_eq_true']
          refine ⟨?_, ih cs (by simp only [List.length_cons] at hl; omega)⟩
          cases hh : urlHit ws (c :: subUrl ws cs) with
          | false => rfl
          | true => rw [urlHit_cons_subUrl hcc hh] at hu; exact Bool.noConfusion hu
        | true =>
          rw [subUrl_cons, if_pos hu]
          have hrest : headOk (fun x => !ws x) (subUrl ws (urlRest ws (c :: cs)))
              = true := headWs_subUrl hcc (urlRest_headWs ws (c :: cs))
          have hfirst : urlHit ws
              ('h' :: 't' :: 't' :: 'p' :: subUrl ws (urlRest ws (c :: cs)))
              = false := by
            cases hh : urlHit ws
                ('h' :: 't' :: 't' :: 'p' :: subUrl ws (urlRest ws (c :: cs))) with
            | false => rfl
            | true =>
              rcases urlHit_shape hh with ⟨g, Y, heq2, _⟩ | ⟨g, Y, heq2, _⟩
              · injection heq2 with _ heq2
                injection heq2 with _ heq2
                injection heq2 with _ heq2
                injection heq2 with _ heq2
                rw [heq2] at hrest
                simp only [headOk, Bool.not_not] at hrest
                rw [hcc.sp_s] at hrest
                exact Bool.noConfusion hrest
              · injection heq2 with _ heq2
                injection heq2 with _ heq2
                injection heq2 with _ heq2
                injection heq2 with _ heq2
                rw [heq2] at hrest
                simp only [headOk, Bool.not_not] at hrest
                rw [hcc.sp_colon] at hrest
                exact Bool.noConfusion hrest
          simp only [noUrl, Bool.and_eq_true, Bool.not_eq_true']
          refine ⟨hfirst, ?_, ?_, ?_, ?_⟩
          · exact urlHit_cons_ne (by decide)
          · exact urlHit_cons_ne (by decide)
          · exact urlHit_cons_ne (by decide)
          · exact ih (urlRest ws (c :: cs))
              (by
                have := urlRest_length_lt ws c cs
                simp only [List.length_cons] at this hl ⊢
                omega)
  exact fun l => main l.length l le_rfl

/-- `collapseWs` preserves freedom from URL matches. -/
theorem noUrl_collapse {w ws : Char → Bool} (hcc : CharClasses w ws) :
    ∀ l, noUrl ws l = true → noUrl ws (collapseWs ws l) = true := by
  have main : ∀ n (l : List Char), l.length ≤ n → noUrl ws l = true →
      noUrl ws (collapseWs ws l) = true := by
    intro n
    induction n with
    | zero =>
      intro l hl _
      have : l = [] := List.eq_nil_of_length_eq_zero (Nat.le_zero.mp hl)
      subst this
      rw [collapseWs_nil]
      rfl
    | succ n ih =>
      intro l hl h
      cases l with
      | nil => rw [collapseWs_nil]; rfl
      | cons c cs =>
        cases hws : ws c with
        | true =>
          rw [collapseWs_cons, if_pos hws]
          simp only [noUrl, Bool.and_eq_true, Bool.not_eq_true']
          constructor
          · exact urlHit_cons_ne (by decide)
          · have hsuf : noUrl ws (cs.dropWhile ws) = true :=
              noUrl_suffix (List.dropWhile_suffix ws) (noUrl_tail h)
            refine ih (cs.dropWhile ws) ?_ hsuf
            have := List.Sublist.length_le (List.dropWhile_sublist (p := ws) (l := cs))
            simp only [List.length_cons] at hl
            omega
        | false =>
          rw [collapseWs_cons, if_neg (by simp [hws])]
          simp only [noUrl, Bool.and_eq_true, Bool.not_eq_true']
          constructor
          · cases hh : urlHit ws (c :: collapseWs ws cs) with
            | false => rfl
            | true =>
              have := urlHit_cons_collapse hcc hh
              rw [noUrl_head h] at this
              exact Bool.noConfusion this
          · exact ih cs (by simp only [List.length_cons] at hl; omega) (noUrl_tail h)
  exact fun l => main l.length l le_rfl

/-- The output of `collapseWs` is in whitespace normal form. -/
theorem wsOk_collapse {ws : Char → Bool} :
    ∀ l, wsOk ws (collapseWs ws l) = true := by
  have main : ∀ n (l : List Char), l.length ≤ n → wsOk ws (collapseWs ws l) = true := by
    intro n
    induction n with
    | zero =>
      intro l hl
      have : l = [] := List.eq_nil_of_length_eq_zero (Nat.le_zero.mp hl)
      subst this
      rw [collapseWs_nil]
      rfl
    | succ n ih =>
      intro l hl
      cases l with
      | nil => rw [collapseWs_nil]; rfl
      | cons c cs =>
        cases hws : ws c with
        | true =>
          rw [collapseWs_cons, if_pos hws]
          simp only [wsOk, Bool.and_eq_true]
          constructor
          · cases hsp : ws ' ' with
            | false => simp
            | true =>
              rw [if_pos rfl]
              simp only [Bool.and_eq_true]
              exact ⟨by simp, headOkWs_collapse (headOk_dropWhile ws cs)⟩
          · refine ih (cs.dropWhile ws) ?_
            have := List.Sublist.length_le (List.dropWhile_sublist (p := ws) (l := cs))
            simp only [List.length_cons] at hl
            omega
        | false =>
          rw [collapseWs_cons, if_neg (by simp [hws])]
          simp only [wsOk, Bool.and_eq_true]
          exact ⟨by simp [hws],
            ih cs (by simp only [List.length_cons] at hl; omega)⟩
  exact fun l => main l.length l le_rfl

/-- Build a mention-normal check for a literal `@user` block. -/
theorem atUserOk_user_build {w : Char → Bool} (hu : w 'u' = true)
    {Z : List Char} (hhead : headOk w Z = true) (hZ : atUserOk w Z = true) :
    atUserOk w ('@' :: 'u' :: 's' :: 'e' :: 'r' :: Z) = true := by
  rw [atUserOk_cons_true (by simp [headIsW, hu])]
  have ht : ('u' :: 's' :: 'e' :: 'r' :: Z).take 4 = ['u', 's', 'e', 'r'] := rfl
  have hd : ('u' :: 's' :: 'e' :: 'r' :: Z).drop 4 = Z := rfl
  rw [ht, hd]
  simp [hhead, hZ]

/-- `subUrl` preserves mention normal form. -/
theorem atUserOk_subUrl {w ws : Char → Bool} (hcc : CharClasses w ws) :
    ∀ l, atUserOk w l = true → atUserOk w (subUrl ws l) = true := by
  have main : ∀ n (l : List Char), l.length ≤ n → atUserOk w l = true →
      atUserOk w (subUrl ws l) = true := by
    intro n
    induction n with
    | zero =>
      intro l hl _
      have : l = [] := List.eq_nil_of_length_eq_zero (Nat.le_zero.mp hl)
      subst this
      rw [subUrl_nil]
      exact atUserOk_nil w
    | succ n ih =>
      intro l hl h
      cases l with
      | nil => rw [subUrl_nil]; exact atUserOk_nil w
      | cons c cs =>
        cases hu : urlHit ws (c :: cs) with
        | true =>
          rw [subUrl_cons, if_pos hu]
          have hsufx : atUserOk w (urlRest ws (c :: cs)) = true :=
            atUserOk_suffix (urlRest_suffix ws (c :: cs)) h
          have hrec : atUserOk w (subUrl ws (urlRest ws (c :: cs))) = true := by
            refine ih _ ?_ hsufx
            have := urlRest_length_lt ws c cs
            simp only [List.length_cons] at this hl ⊢
            omega
          rw [atUserOk_cons_false (by rfl), atUserOk_cons_false (by rfl),
            atUserOk_cons_false (by rfl), atUserOk_cons_false (by rfl)]
          exact hrec
        | false =>
          rw [subUrl_cons, if_neg (by simp [hu])]
          cases hcond : (decide (c = '@') && headIsW w cs) with
          | true =>
            obtain ⟨rfl, rest, rfl, hhead, hrec⟩ := atUserOk_user_shape hcond h
            have h4 : subUrl ws ('u' :: 's' :: 'e' :: 'r' :: rest) =
                'u' :: 's' :: 'e' :: 'r' :: subUrl ws rest := by
              rw [subUrl_cons,
                if_neg (by simp [urlHit_cons_ne (by decide : ('u' : Char) ≠ 'h')])]
              rw [subUrl_cons,
                if_neg (by simp [urlHit_cons_ne (by decide : ('s' : Char) ≠ 'h')])]
              rw [subUrl_cons,
                if_neg (by simp [urlHit_cons_ne (by decide : ('e' : Char) ≠ 'h')])]
              rw [subUrl_cons,
                if_neg (by simp [urlHit_cons_ne (by decide : ('r' : Char) ≠ 'h')])]
            rw [h4]
            exact atUserOk_user_build hcc.word_u (headOkW_subUrl hcc hhead)
              (ih rest (by simp only [List.length_cons] at hl; omega) hrec)
          | false =>
            have hcs : atUserOk w cs = true := by
              rwa [atUserOk_cons_false hcond] at h
            have hrec : atUserOk w (subUrl ws cs) = true :=
              ih cs (by simp only [List.length_cons] at hl; omega) hcs
            cases hc2 : (decide (c = '@') && headIsW w (subUrl ws cs)) with
            | false => rw [atUserOk_cons_false hc2]; exact hrec
            | true =>
              exfalso
              rw [Bool.and_eq_true, decide_eq_true_eq] at hc2
              obtain ⟨rfl, hhw⟩ := hc2
              cases cs with
              | nil => rw [subUrl_nil] at hhw; simp [headIsW] at hhw
              | cons d ds =>
                cases hud : urlHit ws (d :: ds) with
                | true =>
                  rcases urlHit_shape hud with ⟨g, Y, heq2, _⟩ | ⟨g, Y, heq2, _⟩ <;>
                  · injection heq2 with hd' _
                    subst hd'
                    simp [headIsW, hcc.word_h] at hcond
                | false =>
                  rw [subUrl_cons, if_neg (by simp [hud])] at hhw
                  simp only [headIsW] at hhw
                  simp [headIsW, hhw] at hcond
  exact fun l => main l.length l le_rfl

/-- `collapseWs` preserves mention normal form. -/
theorem atUserOk_collapse {w ws : Char → Bool} (hcc : CharClasses w ws) :
    ∀ l, atUserOk w l = true → atUserOk w (collapseWs ws l) = true := by
  have main : ∀ n (l : List Char), l.length ≤ n → atUserOk w l = true →
      atUserOk w (collapseWs ws l) = true := by
    intro n
    induction n with
    | zero =>
      intro l hl _
      have : l = [] := List.eq_nil_of_length_eq_zero (Nat.le_zero.mp hl)
      subst this
      rw [collapseWs_nil]
      exact atUserOk_nil w
    | succ n ih =>
      intro l hl h
      cases l with
      | nil => rw [collapseWs_nil]; exact atUserOk_nil w
      | cons c cs =>
        cases hws : ws c with
        | true =>
          rw [collapseWs_cons, if_pos hws]
          have hcne : c ≠ '@' := by
            intro he
            rw [he, hcc.sp_at] at hws
            exact Bool.noConfusion hws
          have hcs : atUserOk w cs = true := by
            rwa [atUserOk_cons_false (by simp [hcne])] at h
          have hsuf : atUserOk w (cs.dropWhile ws) = true :=
            atUserOk_suffix (List.dropWhile_suffix ws) hcs
          rw [atUserOk_cons_false (by rfl)]
          refine ih _ ?_ hsuf
          have := List.Sublist.length_le (List.dropWhile_sublist (p := ws) (l := cs))
          simp only [List.length_cons] at hl
          omega
        | false =>
          rw [collapseWs_cons, if_neg (by simp [hws])]
          cases hcond : (decide (c = '@') && headIsW w cs) with
          | true =>
            obtain ⟨rfl, rest, rfl, hhead, hrec⟩ := atUserOk_user_shape hcond h
            have h4 : collapseWs ws ('u' :: 's' :: 'e' :: 'r' :: rest) =
                'u' :: 's' :: 'e' :: 'r' :: collapseWs ws rest := by
              rw [collapseWs_cons, if_neg (by simp [hcc.sp_u])]
              rw [collapseWs_cons, if_neg (by simp [hcc.sp_s])]
              rw [collapseWs_cons, if_neg (by simp [hcc.sp_e])]
              rw [collapseWs_cons, if_neg (by simp [hcc.sp_r])]
            rw [h4]
            exact atUserOk_user_build hcc.word_u (headOkW_collapse hcc hhead)
              (ih rest (by simp only [List.length_cons] at hl; omega) hrec)
          | false =>
            have hcs : atUserOk w cs = true := by
              rwa [atUserOk_cons_false hcond] at h
            have hrec : atUserOk w (collapseWs ws cs) = true :=
              ih cs (by simp only [List.length_cons] at hl; omega) hcs
            cases hc2 : (decide (c = '@') && headIsW w (collapseWs ws cs)) with
            | false => rw [atUserOk_cons_false hc2]; exact hrec
            | true =>
              exfalso
              rw [Bool.and_eq_true, decide_eq_true_eq] at hc2
              obtain ⟨rfl, hhw⟩ := hc2
              cases cs with
              | nil => rw [collapseWs_nil] at hhw; simp [headIsW] at hhw
              | cons d ds =>
                cases hd : ws d with
                | true =>
                  rw [collapseWs_cons, if_pos hd] at hhw
                  simp only [headIsW] at hhw
                  rw [hcc.word_sp] at hhw
                  exact Bool.noConfusion hhw
                | false =>
                  rw [collapseWs_cons, if_neg (by simp [hd])] at hhw
                  simp only [headIsW] at hhw
                  simp [headIsW, hhw] at hcond
  exact fun l => main l.length l le_rfl

/-- The output of `subMention` is in mention normal form. -/
theorem atUserOk_subMention {w ws : Char → Bool} (hcc : CharClasses w ws) :
    ∀ l, atUserOk w (subMention w l) = true := by
  have main : ∀ n (l : List Char), l.length ≤ n →
      atUserOk w (subMention w l) = true := by
    intro n
    induction n with
    | zero =>
      intro l hl
      have : l = [] := List.eq_nil_of_length_eq_zero (Nat.le_zero.mp hl)
      subst this
      rw [subMention_nil]
      exact atUserOk_nil w
    | succ n ih =>
      intro l hl
      cases l with
      | nil => rw [subMention_nil]; exact atUserOk_nil w
      | cons c cs =>
        cases hcond : (decide (c = '@') && headIsW w cs) with
        | true =>
          rw [subMention_cons, if_pos hcond]
          refine atUserOk_user_build hcc.word_u
            (headOkW_subMention hcc (headOk_dropWhile w cs)) ?_
          refine ih _ ?_
          have := List.Sublist.length_le (List.dropWhile_sublist (p := w) (l := cs))
          simp only [List.length_cons] at hl
          omega
        | false =>
          rw [subMention_cons, if_neg (by simp [hcond])]
          have hrec : atUserOk w (subMention w cs) = true :=
            ih cs (by simp only [List.length_cons] at hl; omega)
          cases hc2 : (decide (c = '@') && headIsW w (subMention w cs)) with
          | false => rw [atUserOk_cons_false hc2]; exact hrec
          | true =>
            exfalso
            rw [Bool.and_eq_true, decide_eq_true_eq] at hc2
            obtain ⟨rfl, hhw⟩ := hc2
            cases cs with
            | nil => rw [subMention_nil] at hhw; simp [headIsW] at hhw
            | cons d ds =>
              cases hcond3 : (decide (d = '@') && headIsW w ds) with
              | true =>
                rw [subMention_cons, if_pos hcond3] at hhw
                simp only [headIsW] at hhw
                rw [hcc.word_at] at hhw
                exact Bool.noConfusion hhw
              | false =>
                rw [subMention_cons, if_neg (by simp [hcond3])] at hhw
                simp only [headIsW] at hhw
                simp [headIsW, hhw] at hcond
  exact fun l => main l.length l le_rfl

/-- Removing an all-whitespace suffix preserves mention normal form. -/
theorem atUserOk_prefix_wsq {w ws : Char → Bool} (hcc : CharClasses w ws)
    (q : List Char) :
    ∀ m, (∀ x ∈ q, ws x = true) → atUserOk w (m ++ q) = true →
      atUserOk w m = true := by
  have main : ∀ n (m : List Char), m.length ≤ n → (∀ x ∈ q, ws x = true) →
      atUserOk w (m ++ q) = true → atUserOk w m = true := by
    intro n
    induction n with
    | zero =>
      intro m hl _ _
      have : m = [] := List.eq_nil_of_length_eq_zero (Nat.le_zero.mp hl)
      subst this
      exact atUserOk_nil w
    | succ n ih =>
      intro m hl hq h
      cases m with
      | nil => exact atUserOk_nil w
      | cons c m' =>
        rw [List.cons_append] at h
        cases hcond : (decide (c = '@') && headIsW w (m' ++ q)) with
        | true =>
          obtain ⟨rfl, rest', heq, hhead', hrec'⟩ := atUserOk_user_shape hcond h
          cases m' with
          | nil =>
            simp only [List.nil_append] at heq
            have := hq 'u' (by rw [heq]; simp)
            rw [hcc.sp_u] at this
            exact Bool.noConfusion this
          | cons a1 m1 =>
            rw [List.cons_append] at heq
            injection heq with ha1 heq
            subst ha1
            cases m1 with
            | nil =>
              simp only [List.nil_append] at heq
              have := hq 's' (by rw [heq]; simp)
              rw [hcc.sp_s] at this
              exact Bool.noConfusion this
            | cons a2 m2 =>
              rw [List.cons_append] at heq
              injection heq with ha2 heq
              subst ha2
              cases m2 with
              | nil =>
                simp only [List.nil_append] at heq
                have := hq 'e' (by rw [heq]; simp)
                rw [hcc.sp_e] at this
                exact Bool.noConfusion this
              | cons a3 m3 =>
                rw [List.cons_append] at heq
                injection heq with ha3 heq
                subst ha3
                cases m3 with
                | nil =>
                  simp only [List.nil_append] at heq
                  have := hq 'r' (by rw [heq]; simp)
                  rw [hcc.sp_r] at this
                  exact Bool.noConfusion this
                | cons a4 m4 =>
                  rw [List.cons_append] at heq
                  injection heq with ha4 heq
                  subst ha4
                  rw [← heq] at hhead' hrec'
                  refine atUserOk_user_build hcc.word_u ?_ ?_
                  · cases m4 with
                    | nil => rfl
                    | cons d m5 =>
                      rw [List.cons_append] at hhead'
                      simpa only [headOk] using hhead'
                  · exact ih m4 (by simp only [List.length_cons] at hl; omega) hq hrec'
        | false =>
          have h' : atUserOk w (m' ++ q) = true := by
            rwa [atUserOk_cons_false hcond] at h
          cases hc2 : (decide (c = '@') && headIsW w m') with
          | false =>
            rw [atUserOk_cons_false hc2]
            exact ih m' (by simp only [List.length_cons] at hl; omega) hq h'
          | true =>
            exfalso
            rw [Bool.and_eq_true, decide_eq_true_eq] at hc2
            obtain ⟨rfl, hhw⟩ := hc2
            cases m' with
            | nil => simp [headIsW] at hhw
            | cons d m'' =>
              simp only [headIsW] at hhw
              rw [List.cons_append] at hcond
              simp [headIsW, hhw] at hcond
  exact fun m => main m.length m le_rfl

/-- A list satisfying all five normal-form predicates is a fixed point of
the whole preprocessing pipeline. -/
theorem preprocessL_fixed {w ws : Char → Bool} (hcc : CharClasses w ws)
    (t : List Char) (hA : atUserOk w t = true) (hN : noUrl ws t = true)
    (hW : wsOk ws t = true) (hH : headOk ws t = true)
    (hL : lastOk ws t = true) : preprocessL w ws t = t := by
  unfold preprocessL pyStrip
  rw [mention_fixed hcc t hA, url_fixed t hN, collapse_fixed t hW,
    dropWhile_of_headOk ws t hH, dropTrail_fixed ws t hL]

/-- The preprocessing pipeline is idempotent on character lists. -/
theorem preprocessL_idem {w ws : Char → Bool} (hcc : CharClasses w ws)
    (l : List Char) :
    preprocessL w ws (preprocessL w ws l) = preprocessL w ws l := by
  have hx : preprocessL w ws l =
      dropTrail ws ((collapseWs ws (subUrl ws (subMention w l))).dropWhile ws) := rfl
  have hA_x : atUserOk w (collapseWs ws (subUrl ws (subMention w l))) = true :=
    atUserOk_collapse hcc _ (atUserOk_subUrl hcc _ (atUserOk_subMention hcc l))
  have hN_x : noUrl ws (collapseWs ws (subUrl ws (subMention w l))) = true :=
    noUrl_collapse hcc _ (noUrl_subUrl hcc _)
  have hW_x : wsOk ws (collapseWs ws (subUrl ws (subMention w l))) = true :=
    wsOk_collapse _
  have hA1 := atUserOk_suffix (List.dropWhile_suffix ws) hA_x
  have hN1 := noUrl_suffix (List.dropWhile_suffix ws) hN_x
  have hW1 := wsOk_suffix (List.dropWhile_suffix ws) hW_x
  have hH1 : headOk ws
      ((collapseWs ws (subUrl ws (subMention w l))).dropWhile ws) = true :=
    headOk_dropWhile ws _
  obtain ⟨q, hq, hqws⟩ :=
    dropTrail_spec ws ((collapseWs ws (subUrl ws (subMention w l))).dropWhile ws)
  rw [hx]
  refine preprocessL_fixed hcc _ ?_ ?_ ?_ ?_ ?_
  · exact atUserOk_prefix_wsq hcc q _ hqws (by rw [← hq]; exact hA1)
  · exact noUrl_prefix (by rw [← hq]; exact hN1)
  · exact wsOk_prefix (by rw [← hq]; exact hW1)
  · exact headOk_dropTrail ws hH1
  · exact dropTrail_lastOk ws _

/-- Python's `\w` and `\s` satisfy the character-class facts (checked here
for the ASCII instantiations). -/
theorem pyCharClasses : CharClasses pyWordChar pySpaceChar := by
  constructor <;> decide

/-- C10: text preprocessing is idempotent — `@user` and `http` are fixed
points of their substitutions, collapsed whitespace stays collapsed and
trimmed text stays trimmed, for any word/whitespace character classes
satisfying `CharClasses` (Python's `\w`/`\s` do). -/
theorem preprocess_idempotent (w ws : Char → Bool) (hcc : CharClasses w ws)
    (s : String) :
    preprocessText w ws (preprocessText w ws s) = preprocessText w ws s := by
  unfold preprocessText
  have hdata : (String.mk (preprocessL w ws s.data)).data =
      preprocessL w ws s.data := rfl
  rw [hdata, preprocessL_idem hcc]

/-- Witness for C10: a concrete message with a mention, a URL and messy
whitespace, preprocessed twice. -/
theorem preprocess_idempotent_witness :
    preprocessText pyWordChar pySpaceChar
        (preprocessText pyWordChar pySpaceChar "  @abc   http://x.y  hi ") =
      preprocessText pyWordChar pySpaceChar "  @abc   http://x.y  hi " :=
  preprocess_idempotent pyWordChar pySpaceChar pyCharClasses
    "  @abc   http://x.y  hi "

end SentimentBot
